import Mathlib

/-!
Verification development for the Redactify redaction engine.

The definitions below are shallow embeddings of the TypeScript source:
  * the span matcher `findMatchingTextItems` (RedactionTool.tsx, lines 235-281),
  * the recoverable applier `applyRedactionsToPdf` (part_002 lines 599-610,
    part_004 lines 203-214),
  * the secure/flatten export loop `handleDownloadSecure` (part_002 lines 647-708),
  * the output-filename builder `getRedactedFilename` (part_002 lines 612-623),
  * the manual drag-capture handlers (part_002 lines 429-464, part_004 lines 170-192)
    and the page/canvas coordinate conversions they use (part_004 lines 61-71, 176-185).

JavaScript strings are modelled as `List Char`, JavaScript numbers as `ℚ`
(all the arithmetic the claims touch is exact in the source's value range).
-/

namespace Redactify

/-- One positioned text run as stored by the loader (RedactionTool.tsx lines 85-96):
`str` is the fragment text, `tx`/`ty` are `transform[4]`/`transform[5]`
(page-space origin of the run), `width`/`height` its rendered extent, and
`pageIndex` the zero-based page it lives on. -/
structure PdfTextItem where
  str : List Char
  tx : ℚ
  ty : ℚ
  width : ℚ
  height : ℚ
  pageIndex : Nat
deriving DecidableEq

/-- JavaScript `toLowerCase` restricted to the ASCII range the tool handles. -/
def lowerStr (s : List Char) : List Char :=
  s.map Char.toLower

/-- JavaScript `trim`: strip leading and trailing whitespace. -/
def trimStr (s : List Char) : List Char :=
  ((s.dropWhile Char.isWhitespace).reverse.dropWhile Char.isWhitespace).reverse

/-- Helper for `replaceFirst`: remove the first occurrence of a non-empty needle. -/
def replaceFirstAux (needle : List Char) : List Char → List Char
  | [] => []
  | c :: rest =>
    if needle.isPrefixOf (c :: rest) then (c :: rest).drop needle.length
    else c :: replaceFirstAux needle rest

/-- JavaScript `s.replace(needle, '')` for a plain-string needle: delete the
first occurrence; the empty needle matches at position 0 and deletes nothing. -/
def replaceFirst (needle s : List Char) : List Char :=
  if needle.isEmpty then s else replaceFirstAux needle s

/-- JavaScript `String.includes`: substring containment. -/
def includesStr (needle : List Char) : List Char → Bool
  | [] => needle.isEmpty
  | c :: rest => needle.isPrefixOf (c :: rest) || includesStr needle rest

/-- The matcher's acceptance test (RedactionTool.tsx lines 267-271): the
lower-cased buffer contains the needle, and deleting the needle's first
occurrence and trimming leaves fewer than 2 characters. -/
def acceptBuffer (needle buffer : List Char) : Bool :=
  includesStr needle (lowerStr buffer) &&
    decide ((trimStr (replaceFirst needle (lowerStr buffer))).length < 2)

/-- The run-break conditions of the inner loop (RedactionTool.tsx lines 247-256):
page change, new line (y jump above half the height), or a horizontal gap
larger than the height. -/
def breaksRun (prev cur : PdfTextItem) : Prop :=
  cur.pageIndex ≠ prev.pageIndex ∨
  |cur.ty - prev.ty| > cur.height * (1 / 2) ∨
  cur.tx - (prev.tx + prev.width) > cur.height

instance (prev cur : PdfTextItem) : Decidable (breaksRun prev cur) := by
  unfold breaksRun
  exact inferInstance

/-- The space inserted between consecutive accumulated fragments when the
horizontal gap exceeds 0.1 (RedactionTool.tsx lines 258-260). -/
def gapSpace (prev cur : PdfTextItem) : List Char :=
  if cur.tx - (prev.tx + prev.width) > 1 / 10 then [' '] else []

/-- The inner accumulation loop of `findMatchingTextItems` for positions after the
start fragment (RedactionTool.tsx lines 243-278).  `prev` is the last accumulated
item, `buffer` the running text, `acc` the accumulated items, `jRel` the offset of
`prev` from the start position.  Returns the matched items together with the
offset of the last matched item when the acceptance test fires. -/
def innerCont (needle : List Char) (bound : Nat) :
    PdfTextItem → List Char → List PdfTextItem → Nat → List PdfTextItem →
    Option (List PdfTextItem × Nat)
  | _, _, _, _, [] => none
  | prev, buffer, acc, jRel, cur :: rest =>
    if breaksRun prev cur then none
    else
      let buffer' := buffer ++ gapSpace prev cur ++ cur.str
      let acc' := acc ++ [cur]
      if acceptBuffer needle buffer' then some (acc', jRel + 1)
      else if buffer'.length > bound then none
      else innerCont needle bound cur buffer' acc' (jRel + 1) rest

/-- One full pass of the inner loop from a start fragment (RedactionTool.tsx
lines 240-278): initialise the buffer with the start fragment, test, and
continue with `innerCont`. -/
def innerScan (needle : List Char) (bound : Nat) :
    List PdfTextItem → Option (List PdfTextItem × Nat)
  | [] => none
  | cur :: rest =>
    if acceptBuffer needle cur.str then some ([cur], 0)
    else if cur.str.length > bound then none
    else innerCont needle bound cur cur.str [cur] 0 rest

/-- The outer scan of `findMatchingTextItems` (RedactionTool.tsx lines 239-279):
try each start position; on a match at relative offset `jRel`, resume after
the matched items (`i = j` then `i++`).  Fuel equals the number of remaining
start positions, so `fuel = items.length` runs the scan to completion. -/
def scanAux (needle : List Char) (bound : Nat) : Nat → List PdfTextItem → List (List PdfTextItem)
  | 0, _ => []
  | _, [] => []
  | fuel + 1, cur :: rest =>
    match innerScan needle bound (cur :: rest) with
    | some (m, jRel) => m :: scanAux needle bound fuel (rest.drop jRel)
    | none => scanAux needle bound fuel rest

/-- `findMatchingTextItems` (RedactionTool.tsx lines 235-281): lower-case the
term, bound the buffer by `term.length + 20`, and scan every start position. -/
def findMatchingTextItems (term : List Char) (items : List PdfTextItem) :
    List (List PdfTextItem) :=
  scanAux (lowerStr term) (term.length + 20) items.length items

/-- The buffer text that the inner loop accumulates over a run of consecutive
fragments: the fragments' strings joined with `gapSpace` between neighbours. -/
def bufferOf : List PdfTextItem → List Char
  | [] => []
  | [a] => a.str
  | a :: b :: rest => a.str ++ gapSpace a b ++ bufferOf (b :: rest)

/-- Concatenated raw text of a span's fragments. -/
def spanText (span : List PdfTextItem) : List Char :=
  (span.map PdfTextItem.str).flatten

/-- Modelled from the spec: the normalisation the spec's matcher contract uses,
lower-casing and stripping all whitespace (spec §4.1). -/
def specNormalize (s : List Char) : List Char :=
  (lowerStr s).filter (fun c => !c.isWhitespace)

/-- A stored redaction region (part_002 lines 20-26): page-space rectangle plus
the zero-based page index. -/
structure RedactionArea where
  pageIndex : Nat
  x : ℚ
  y : ℚ
  width : ℚ
  height : ℚ
deriving DecidableEq

/-- One object of a page's content stream, as far as the claims need it: a text
run, a font resource, or an appended opaque rectangle fill with its colour. -/
inductive PageOp where
  | text (s : List Char)
  | font (name : List Char)
  | rect (r : RedactionArea) (color : ℚ × ℚ × ℚ)
deriving DecidableEq

/-- A page of a pdf-lib document: its ordered content objects. -/
structure PdfPage where
  content : List PageOp
deriving DecidableEq

/-- pdf-lib `page.drawRectangle({...r, color: rgb(0,0,0)})` as called by
`applyRedactionsToPdf`: append one opaque black rectangle fill. -/
def drawRectangle (p : PdfPage) (r : RedactionArea) : PdfPage :=
  ⟨p.content ++ [PageOp.rect r (0, 0, 0)]⟩

/-- One iteration of `applyRedactionsToPdf`'s `forEach` (part_002 lines 601-609):
draw on page `r.pageIndex` when it is in range, otherwise do nothing. -/
def applyOne (pgs : List PdfPage) (r : RedactionArea) : List PdfPage :=
  if h : r.pageIndex < pgs.length then
    pgs.set r.pageIndex (drawRectangle (pgs.get ⟨r.pageIndex, h⟩) r)
  else pgs

/-- `applyRedactionsToPdf` (part_002 lines 599-610, part_004 lines 203-214):
paint every in-range redaction region onto its page. -/
def applyRedactionsToPdf (pages : List PdfPage) (redactions : List RedactionArea) :
    List PdfPage :=
  redactions.foldl applyOne pages

/-- The text runs extractable from a page. -/
def extractTexts (p : PdfPage) : List (List Char) :=
  p.content.filterMap fun op =>
    match op with
    | PageOp.text s => some s
    | _ => none

/-- The font resources extractable from a page. -/
def extractFonts (p : PdfPage) : List (List Char) :=
  p.content.filterMap fun op =>
    match op with
    | PageOp.font n => some n
    | _ => none

/-- `getRedactedFilename`'s `lastIndexOf('.')` (part_002 line 616). -/
def lastIndexOfDot : List Char → Option Nat
  | [] => none
  | c :: rest =>
    match lastIndexOfDot rest with
    | some i => some (i + 1)
    | none => if c = '.' then some 0 else none

/-- `getRedactedFilename` (part_002 lines 612-623): fall back to
`redacted-document-<suffix>.pdf` when no source filename is recorded, otherwise
insert ` (Redacted)` before the last dot (or append ` (Redacted).pdf` when the
name has no dot). -/
def getRedactedFilename (originalFilename suffix : List Char) : List Char :=
  if originalFilename = [] then
    "redacted-document-".toList ++ suffix ++ ".pdf".toList
  else
    match lastIndexOfDot originalFilename with
    | none => originalFilename ++ " (Redacted).pdf".toList
    | some i =>
      originalFilename.take i ++ " (Redacted)".toList ++ originalFilename.drop i

/-- A rectangle in screen/canvas coordinates (top-left origin). -/
structure ScreenRect where
  x : ℚ
  y : ℚ
  width : ℚ
  height : ℚ
deriving DecidableEq

/-- The interactive render viewport: pdf.js `page.getViewport({scale})` of an
unrotated page, with `height = scale * pageHeight`. -/
structure Viewport where
  scale : ℚ
  height : ℚ
deriving DecidableEq

/-- Modelled from the spec: pdf.js `viewport.convertToPdfPoint` for an unrotated
viewport — pdf.js is the out-of-scope page-parsing collaborator, and spec §4.2
gives the screen-to-page map as the algebraic inverse of
`screenX = x * scale`, `screenY = height - y * scale`. -/
def convertToPdfPoint (vp : Viewport) (vx vy : ℚ) : ℚ × ℚ :=
  (vx / vp.scale, (vp.height - vy) / vp.scale)

/-- The region-creating part of the main drag handler's `handleMouseUp`
(part_002 lines 429-457): reject drags unless both screen dimensions exceed
5 px, otherwise convert the two opposite corners with `convertToPdfPoint` and
append the normalised page-space rectangle. -/
def handleMouseUpMain (startX startY endX endY : ℚ) (vp : Viewport)
    (currentPageNumber : Nat) (redactions : List RedactionArea) :
    List RedactionArea :=
  let finalWidth := |startX - endX|
  let finalHeight := |startY - endY|
  if finalWidth > 5 ∧ finalHeight > 5 then
    let finalX := min startX endX
    let finalY := min startY endY
    let p1 := convertToPdfPoint vp finalX (finalY + finalHeight)
    let p2 := convertToPdfPoint vp (finalX + finalWidth) finalY
    redactions ++ [⟨currentPageNumber - 1, min p1.1 p2.1, min p1.2 p2.2,
      |p1.1 - p2.1|, |p1.2 - p2.2|⟩]
  else redactions

/-- The screen rectangle that part_004's `renderPage` (lines 61-71) paints for a
stored region `r`: page space to canvas space at the render viewport's scale,
with the vertical flip. -/
def renderPageRect (r : RedactionArea) (scale viewportHeight : ℚ) : ScreenRect :=
  ⟨r.x * scale, viewportHeight - (r.y + r.height) * scale,
    r.width * scale, r.height * scale⟩

/-- The `pdfCoords` computation of part_004's `handleMouseUp` (lines 176-185):
`scaleX = canvas.width / renderViewport.width`,
`scaleY = canvas.height / renderViewport.height`, then divide and flip. -/
def mouseUpPdfCoords (d : ScreenRect) (canvasW canvasH renderW renderH : ℚ)
    (pageIndex : Nat) : RedactionArea :=
  let scaleX := canvasW / renderW
  let scaleY := canvasH / renderH
  ⟨pageIndex, d.x / scaleX, (canvasH - (d.y + d.height)) / scaleY,
    d.width / scaleX, d.height / scaleY⟩

/-- part_004's `handleMouseUp` (lines 170-192): whenever a drawing rectangle
exists it is converted with `mouseUpPdfCoords` and appended — there is no
minimum-size test. -/
def handleMouseUpOld (d : ScreenRect) (canvasW canvasH renderW renderH : ℚ)
    (pageIndex : Nat) (redactions : List RedactionArea) : List RedactionArea :=
  redactions ++ [mouseUpPdfCoords d canvasW canvasH renderW renderH pageIndex]

/-- The per-page outcome flags of the secure export loop (part_002 lines
655-698): whether `canvas.getContext('2d')` returns a context, whether
`page.render(...).promise` resolves, and whether `canvas.toBlob` delivers a
blob (so `imageBytes` is non-empty); plus the page's intrinsic size. -/
structure SecPage where
  hasContext : Bool
  renderOk : Bool
  encodeOk : Bool
  pageWidth : ℚ
  pageHeight : ℚ
deriving DecidableEq

/-- The only failure `handleDownloadSecure` propagates: a rejected render
promise, which the surrounding `try` turns into a failed export. -/
inductive ExportError where
  | renderFailed
deriving DecidableEq

/-- A page of the rebuilt secure document: the embedded full-page image's size
and the redaction rectangles painted into its pixels. -/
structure OutPage where
  width : ℚ
  height : ℚ
  painted : List ScreenRect
deriving DecidableEq

/-- The canvas rectangle painted for region `r` in the secure loop (part_002
lines 673-679). -/
def paintRect (r : RedactionArea) (renderScale canvasH : ℚ) : ScreenRect :=
  ⟨r.x * renderScale, canvasH - (r.y + r.height) * renderScale,
    r.width * renderScale, r.height * renderScale⟩

/-- One iteration of the secure export loop for the page with index `i`
(part_002 lines 655-698): skip the page when no 2d context is available
(`continue`), fail the export when the render promise rejects (`throw`), paint
this page's redactions, and skip the page when encoding yields no bytes. -/
def renderSecurePage (p : SecPage) (i : Nat) (redactions : List RedactionArea) :
    Except ExportError (Option OutPage) :=
  let vw := p.pageWidth * 2
  let vh := p.pageHeight * 2
  if p.hasContext = false then Except.ok none
  else if p.renderOk = false then Except.error ExportError.renderFailed
  else
    let pageRedactions := redactions.filter fun r => r.pageIndex == i
    let painted := pageRedactions.map fun r => paintRect r (vw / p.pageWidth) vh
    if p.encodeOk = false then Except.ok none
    else Except.ok (some ⟨vw, vh, painted⟩)

/-- The secure export's page loop, threading the page index. -/
def securePagesAux (redactions : List RedactionArea) :
    Nat → List SecPage → Except ExportError (List OutPage)
  | _, [] => Except.ok []
  | i, p :: rest =>
    match renderSecurePage p i redactions with
    | Except.error e => Except.error e
    | Except.ok none => securePagesAux redactions (i + 1) rest
    | Except.ok (some op) =>
      match securePagesAux redactions (i + 1) rest with
      | Except.error e => Except.error e
      | Except.ok outs => Except.ok (op :: outs)

/-- `handleDownloadSecure`'s document assembly (part_002 lines 647-708): run the
page loop over all pages; an error aborts the export before anything reaches
`downloadPdf`, otherwise the successfully encoded pages form the new document. -/
def handleDownloadSecure (pages : List SecPage) (redactions : List RedactionArea) :
    Except ExportError (List OutPage) :=
  securePagesAux redactions 0 pages

/-- Claim C3, evaluation at the failing input: the region `(x,y,w,h) = (1,0,1,1)`
on a 10×10-point page rendered at scale 2 (canvas and render viewport both
20×20) is drawn by `renderPageRect` and converted back by `mouseUpPdfCoords`
to `(2,0,2,2)` — twice the original, 1 page unit away from it, far outside the
1e-6 tolerance, because `scaleX = canvas.width / renderViewport.width` is 1
rather than the render scale 2. -/
theorem c3_roundtrip_eval :
    mouseUpPdfCoords (renderPageRect ⟨0, 1, 0, 1, 1⟩ 2 20) 20 20 20 20 0 =
      ⟨0, 2, 0, 2, 2⟩ ∧
    |(mouseUpPdfCoords (renderPageRect ⟨0, 1, 0, 1, 1⟩ 2 20) 20 20 20 20 0).x -
      (⟨0, 1, 0, 1, 1⟩ : RedactionArea).x| > 1 / 1000000 := by
  constructor
  · norm_num [mouseUpPdfCoords, renderPageRect]
  · norm_num [mouseUpPdfCoords, renderPageRect]

/-- Claim C7, counterexample: the all-whitespace term `" "` does produce a match
on the fragment list `["a "]` — the buffer `"a "` contains `" "`, and deleting
it and trimming leaves `"a"` of length 1 < 2. -/
theorem c7_counterexample :
    findMatchingTextItems " ".toList [⟨"a ".toList, 0, 0, 10, 10, 0⟩] ≠ [] := by
  decide

/-- Claim C7 (amended): a term with zero non-whitespace characters is not
special-cased: the generic scan runs on it without error and can return
matches; the single-space term on the one-fragment list `["a "]` returns
exactly one span covering that fragment. -/
theorem c7_amended :
    (∀ c ∈ " ".toList, c.isWhitespace = true) ∧
    findMatchingTextItems " ".toList [⟨"a ".toList, 0, 0, 10, 10, 0⟩] =
      [[⟨"a ".toList, 0, 0, 10, 10, 0⟩]] := by
  constructor
  · decide
  · decide

/-- Claim C8, counterexample: with a loaded source filename `doc.pdf` both
export modes produce the identical name `doc (Redacted).pdf`, so the name does
not indicate which mode produced the file. -/
theorem c8_counterexample :
    getRedactedFilename "doc.pdf".toList "recoverable".toList =
      getRedactedFilename "doc.pdf".toList "secure".toList ∧
    getRedactedFilename "doc.pdf".toList "recoverable".toList =
      "doc (Redacted).pdf".toList := by
  constructor
  · decide
  · decide

/-- Claim C8 (amended): the output filename is derived from the loaded source
filename with a ` (Redacted)` marker and is the same for both modes; the
mode-indicating suffix appears only in the fallback name used when no source
filename is recorded. -/
theorem c8_amended :
    ∀ name s₁ s₂ s, (name ≠ [] → getRedactedFilename name s₁ = getRedactedFilename name s₂) ∧
      ∃ pre post, getRedactedFilename [] s = pre ++ s ++ post := by
  intro name s₁ s₂ s
  constructor
  · intro h
    simp only [getRedactedFilename, if_neg h]
  · exact ⟨"redacted-document-".toList, ".pdf".toList, by simp [getRedactedFilename]⟩

/-- Claim C8, witness: the amended statement at the concrete filename
`doc.pdf` with the two mode suffixes the code passes. -/
theorem c8_witness :
    getRedactedFilename "doc.pdf".toList "recoverable".toList =
      getRedactedFilename "doc.pdf".toList "secure".toList :=
  (c8_amended "doc.pdf".toList "recoverable".toList "secure".toList
    "secure".toList).1 (by decide)

theorem renderSecurePage_error_iff (p : SecPage) (i : Nat) (rs : List RedactionArea)
    (hc : p.hasContext = true) (hr : p.renderOk = false) :
    renderSecurePage p i rs = Except.error ExportError.renderFailed := by
  simp [renderSecurePage, hc, hr]

theorem renderSecurePage_none_flags (p : SecPage) (i : Nat) (rs : List RedactionArea)
    (h : renderSecurePage p i rs = Except.ok none) :
    (p.hasContext && p.renderOk && p.encodeOk) = false := by
  cases hc : p.hasContext <;> cases hr : p.renderOk <;> cases he : p.encodeOk <;>
    simp_all [renderSecurePage]

theorem renderSecurePage_some_flags (p : SecPage) (i : Nat) (rs : List RedactionArea)
    (op : OutPage) (h : renderSecurePage p i rs = Except.ok (some op)) :
    (p.hasContext && p.renderOk && p.encodeOk) = true := by
  cases hc : p.hasContext <;> cases hr : p.renderOk <;> cases he : p.encodeOk <;>
    simp_all [renderSecurePage]

theorem securePagesAux_error (rs : List RedactionArea) :
    ∀ (pages : List SecPage) (i : Nat),
      (∃ p ∈ pages, p.hasContext = true ∧ p.renderOk = false) →
      ∃ e, securePagesAux rs i pages = Except.error e := by
  intro pages
  induction pages with
  | nil => intro i h; simp at h
  | cons p rest ih =>
    intro i h
    rcases h with ⟨q, hq, hqc, hqr⟩
    rcases List.mem_cons.mp hq with rfl | hq'
    · exact ⟨ExportError.renderFailed, by
        simp [securePagesAux, renderSecurePage_error_iff q i rs hqc hqr]⟩
    · cases hstep : renderSecurePage p i rs with
      | error e => exact ⟨e, by simp [securePagesAux, hstep]⟩
      | ok o =>
        cases o with
        | none =>
          obtain ⟨e, he⟩ := ih (i + 1) ⟨q, hq', hqc, hqr⟩
          exact ⟨e, by simp [securePagesAux, hstep, he]⟩
        | some op =>
          obtain ⟨e, he⟩ := ih (i + 1) ⟨q, hq', hqc, hqr⟩
          exact ⟨e, by simp [securePagesAux, hstep, he]⟩

theorem securePagesAux_ok_length (rs : List RedactionArea) :
    ∀ (pages : List SecPage) (i : Nat) (outs : List OutPage),
      securePagesAux rs i pages = Except.ok outs →
      outs.length =
        (pages.filter fun p => p.hasContext && p.renderOk && p.encodeOk).length := by
  intro pages
  induction pages with
  | nil =>
    intro i outs h
    simp only [securePagesAux] at h
    cases h
    simp
  | cons p rest ih =>
    intro i outs h
    simp only [securePagesAux] at h
    cases hstep : renderSecurePage p i rs with
    | error e => rw [hstep] at h; cases h
    | ok o =>
      cases o with
      | none =>
        rw [hstep] at h
        rw [List.filter_cons, renderSecurePage_none_flags p i rs hstep]
        simpa using ih (i + 1) outs h
      | some op =>
        rw [hstep] at h
        cases hrec : securePagesAux rs (i + 1) rest with
        | error e => rw [hrec] at h; cases h
        | ok outs' =>
          rw [hrec] at h
          cases h
          rw [List.filter_cons, renderSecurePage_some_flags p i rs op hstep]
          simpa using ih (i + 1) outs' hrec

/-- Claim C1, counterexample: a one-page document whose page gets a context and
rasterizes but whose PNG encoding yields no bytes is *not* a failed export —
the export succeeds and hands a zero-page document to the download boundary,
silently omitting the page. -/
theorem c1_counterexample :
    handleDownloadSecure [⟨true, true, false, 10, 10⟩] [] = Except.ok [] := rfl

/-- Claim C1 (amended): if any page's rasterization (`page.render`) rejects,
the whole secure export fails and nothing reaches the download boundary; but a
page whose 2d canvas context is unavailable or whose image encoding yields an
empty byte array is silently skipped, so a produced output document contains
exactly one page for every input page that obtained a context, rasterized and
encoded — which can be fewer pages than the input document. -/
theorem c1_secure_export :
    ∀ (pages : List SecPage) (rs : List RedactionArea),
      ((∃ p ∈ pages, p.hasContext = true ∧ p.renderOk = false) →
        ∃ e, handleDownloadSecure pages rs = Except.error e) ∧
      (∀ outs, handleDownloadSecure pages rs = Except.ok outs →
        outs.length =
          (pages.filter fun p => p.hasContext && p.renderOk && p.encodeOk).length) := by
  intro pages rs
  exact ⟨securePagesAux_error rs pages 0, fun outs h => securePagesAux_ok_length rs pages 0 outs h⟩

/-- Claim C1, witness: the amended statement applied to a one-page document
whose page fails to rasterize (the export errors) and, in the second conjunct,
to a one-page document that fully succeeds. -/
theorem c1_witness :
    (∃ e, handleDownloadSecure [⟨true, false, true, 10, 10⟩] [] = Except.error e) ∧
    (∀ outs, handleDownloadSecure [⟨true, true, true, 10, 10⟩] [] = Except.ok outs →
      outs.length =
        (([⟨true, true, true, 10, 10⟩] : List SecPage).filter
          fun p => p.hasContext && p.renderOk && p.encodeOk).length) :=
  ⟨(c1_secure_export [⟨true, false, true, 10, 10⟩] []).1
      ⟨⟨true, false, true, 10, 10⟩, by simp, rfl, rfl⟩,
    (c1_secure_export [⟨true, true, true, 10, 10⟩] []).2⟩

theorem applyOne_length (pgs : List PdfPage) (r : RedactionArea) :
    (applyOne pgs r).length = pgs.length := by
  unfold applyOne
  split <;> simp

theorem applyRedactions_length :
    ∀ (rs : List RedactionArea) (pages : List PdfPage),
      (applyRedactionsToPdf pages rs).length = pages.length := by
  intro rs
  induction rs with
  | nil => intro pages; rfl
  | cons r rs ih =>
    intro pages
    show (applyRedactionsToPdf (applyOne pages r) rs).length = pages.length
    rw [ih (applyOne pages r), applyOne_length]

theorem applyOne_content (pgs : List PdfPage) (r : RedactionArea) (i : Nat) :
    ∃ added, ((applyOne pgs r).getD i ⟨[]⟩).content = ((pgs.getD i ⟨[]⟩).content) ++ added ∧
      ∀ op ∈ added, ∃ r', op = PageOp.rect r' (0, 0, 0) := by
  unfold applyOne
  split
  case isTrue h =>
    by_cases hi : i = r.pageIndex
    · subst hi
      refine ⟨[PageOp.rect r (0, 0, 0)], ?_, by simp⟩
      rw [List.getD_eq_getElem?_getD, List.getElem?_set_self (by simpa using h),
        List.getD_eq_getElem?_getD, List.getElem?_eq_getElem (by simpa using h)]
      simp [drawRectangle]
    · refine ⟨[], by rw [List.getD_eq_getElem?_getD, List.getElem?_set_ne (by omega)]; simp [List.getD_eq_getElem?_getD], by simp⟩
  case isFalse h => exact ⟨[], by simp, by simp⟩

theorem applyRedactions_content :
    ∀ (rs : List RedactionArea) (pages : List PdfPage) (i : Nat),
      ∃ added,
        ((applyRedactionsToPdf pages rs).getD i ⟨[]⟩).content =
          ((pages.getD i ⟨[]⟩).content) ++ added ∧
        ∀ op ∈ added, ∃ r', op = PageOp.rect r' (0, 0, 0) := by
  intro rs
  induction rs with
  | nil => intro pages i; exact ⟨[], by simp [applyRedactionsToPdf], by simp⟩
  | cons r rs ih =>
    intro pages i
    obtain ⟨a1, ha1, ha1r⟩ := applyOne_content pages r i
    obtain ⟨a2, ha2, ha2r⟩ := ih (applyOne pages r) i
    refine ⟨a1 ++ a2, ?_, ?_⟩
    · show ((applyRedactionsToPdf (applyOne pages r) rs).getD i ⟨[]⟩).content = _
      rw [ha2, ha1, List.append_assoc]
    · intro op hop
      rcases List.mem_append.mp hop with h | h
      · exact ha1r op h
      · exact ha2r op h

theorem filterMap_rect_only (f : PageOp → Option (List Char))
    (hf : ∀ r c, f (PageOp.rect r c) = none) (added : List PageOp)
    (h : ∀ op ∈ added, ∃ r', op = PageOp.rect r' (0, 0, 0)) :
    added.filterMap f = [] := by
  rw [List.filterMap_eq_nil_iff]
  intro op hop
  obtain ⟨r', rfl⟩ := h op hop
  exact hf r' (0, 0, 0)

/-- Claim C4: the recoverable applier is strictly additive — the output has the
same page count as the input, every page's original content objects form a
prefix of the output page's content and the only appended objects are opaque
black rectangle fills, so every original text run and font resource stays
present and extractable. -/
theorem c4_recoverable_additive :
    ∀ (pages : List PdfPage) (rs : List RedactionArea),
      (applyRedactionsToPdf pages rs).length = pages.length ∧
      ∀ i, ∃ added,
        ((applyRedactionsToPdf pages rs).getD i ⟨[]⟩).content =
          ((pages.getD i ⟨[]⟩).content) ++ added ∧
        (∀ op ∈ added, ∃ r', op = PageOp.rect r' (0, 0, 0)) ∧
        extractTexts ((applyRedactionsToPdf pages rs).getD i ⟨[]⟩) =
          extractTexts (pages.getD i ⟨[]⟩) ∧
        extractFonts ((applyRedactionsToPdf pages rs).getD i ⟨[]⟩) =
          extractFonts (pages.getD i ⟨[]⟩) := by
  intro pages rs
  refine ⟨applyRedactions_length rs pages, fun i => ?_⟩
  obtain ⟨added, hadd, hrect⟩ := applyRedactions_content rs pages i
  refine ⟨added, hadd, hrect, ?_, ?_⟩
  · unfold extractTexts
    rw [hadd, List.filterMap_append, filterMap_rect_only _ (by intro r c; rfl) added hrect,
      List.append_nil]
  · unfold extractFonts
    rw [hadd, List.filterMap_append, filterMap_rect_only _ (by intro r c; rfl) added hrect,
      List.append_nil]

/-- Claim C4, witness: the additivity statement at a concrete one-page document
with one in-range region. -/
theorem c4_witness :
    (applyRedactionsToPdf [⟨[PageOp.text "hi".toList]⟩] [⟨0, 1, 1, 2, 2⟩]).length =
      ([⟨[PageOp.text "hi".toList]⟩] : List PdfPage).length ∧
    ∀ i, ∃ added,
      ((applyRedactionsToPdf [⟨[PageOp.text "hi".toList]⟩] [⟨0, 1, 1, 2, 2⟩]).getD i
          ⟨[]⟩).content =
        ((([⟨[PageOp.text "hi".toList]⟩] : List PdfPage).getD i ⟨[]⟩).content) ++ added ∧
      (∀ op ∈ added, ∃ r', op = PageOp.rect r' (0, 0, 0)) ∧
      extractTexts ((applyRedactionsToPdf [⟨[PageOp.text "hi".toList]⟩]
          [⟨0, 1, 1, 2, 2⟩]).getD i ⟨[]⟩) =
        extractTexts (([⟨[PageOp.text "hi".toList]⟩] : List PdfPage).getD i ⟨[]⟩) ∧
      extractFonts ((applyRedactionsToPdf [⟨[PageOp.text "hi".toList]⟩]
          [⟨0, 1, 1, 2, 2⟩]).getD i ⟨[]⟩) =
        extractFonts (([⟨[PageOp.text "hi".toList]⟩] : List PdfPage).getD i ⟨[]⟩) :=
  c4_recoverable_additive [⟨[PageOp.text "hi".toList]⟩] [⟨0, 1, 1, 2, 2⟩]

theorem applyOne_out_of_range (pages : List PdfPage) (r : RedactionArea)
    (h : pages.length ≤ r.pageIndex) : applyOne pages r = pages := by
  unfold applyOne
  rw [dif_neg (by omega)]

theorem applyRedactions_filter :
    ∀ (rs : List RedactionArea) (pages : List PdfPage),
      applyRedactionsToPdf pages rs =
        applyRedactionsToPdf pages
          (rs.filter fun r => decide (r.pageIndex < pages.length)) := by
  intro rs
  induction rs with
  | nil => intro pages; rfl
  | cons r rs ih =>
    intro pages
    by_cases h : r.pageIndex < pages.length
    · have step : applyRedactionsToPdf pages (r :: rs) =
          applyRedactionsToPdf (applyOne pages r) rs := rfl
      rw [step, List.filter_cons, if_pos (by simpa using h)]
      have step2 : applyRedactionsToPdf pages
          (r :: rs.filter fun x => decide (x.pageIndex < pages.length)) =
          applyRedactionsToPdf (applyOne pages r)
            (rs.filter fun x => decide (x.pageIndex < pages.length)) := rfl
      rw [step2, ih (applyOne pages r)]
      have hlen : (applyOne pages r).length = pages.length := applyOne_length pages r
      rw [hlen]
    · have step : applyRedactionsToPdf pages (r :: rs) =
          applyRedactionsToPdf (applyOne pages r) rs := rfl
      rw [step, applyOne_out_of_range pages r (by omega), List.filter_cons,
        if_neg (by simpa using h)]
      exact ih pages

/-- Claim C10: the recoverable applier draws only for regions whose `pageIndex`
is strictly below the page count — the result equals applying only the
in-range regions, and a single out-of-range region leaves the document
untouched (no out-of-range access, no failure). -/
theorem c10_skip_out_of_range :
    ∀ (pages : List PdfPage) (rs : List RedactionArea),
      applyRedactionsToPdf pages rs =
        applyRedactionsToPdf pages
          (rs.filter fun r => decide (r.pageIndex < pages.length)) ∧
      ∀ r : RedactionArea, pages.length ≤ r.pageIndex → applyOne pages r = pages := by
  intro pages rs
  exact ⟨applyRedactions_filter rs pages, fun r h => applyOne_out_of_range pages r h⟩

/-- Claim C10, witness: a region aimed at page 5 of a one-page document is
skipped, and the result with only that region equals the result with no
regions at all. -/
theorem c10_witness :
    applyRedactionsToPdf [⟨[PageOp.text "hi".toList]⟩] [⟨5, 0, 0, 1, 1⟩] =
      applyRedactionsToPdf [⟨[PageOp.text "hi".toList]⟩]
        (([⟨5, 0, 0, 1, 1⟩] : List RedactionArea).filter
          fun r => decide (r.pageIndex < ([⟨[PageOp.text "hi".toList]⟩] : List PdfPage).length)) ∧
    applyOne [⟨[PageOp.text "hi".toList]⟩] ⟨5, 0, 0, 1, 1⟩ = [⟨[PageOp.text "hi".toList]⟩] :=
  ⟨(c10_skip_out_of_range [⟨[PageOp.text "hi".toList]⟩] [⟨5, 0, 0, 1, 1⟩]).1,
    (c10_skip_out_of_range [⟨[PageOp.text "hi".toList]⟩] [⟨5, 0, 0, 1, 1⟩]).2
      ⟨5, 0, 0, 1, 1⟩ (by decide)⟩

theorem scanAux_mem (needle : List Char) (bound : Nat) :
    ∀ (fuel : Nat) (items : List PdfTextItem) (span : List PdfTextItem),
      span ∈ scanAux needle bound fuel items →
      ∃ l j, innerScan needle bound l = some (span, j) := by
  intro fuel
  induction fuel with
  | zero => intro items span h; simp [scanAux] at h
  | succ n ih =>
    intro items span h
    cases items with
    | nil => simp [scanAux] at h
    | cons cur rest =>
      simp only [scanAux] at h
      cases hscan : innerScan needle bound (cur :: rest) with
      | none => rw [hscan] at h; exact ih rest span h
      | some p =>
        obtain ⟨m, jRel⟩ := p
        rw [hscan] at h
        rcases List.mem_cons.mp h with rfl | h'
        · exact ⟨cur :: rest, jRel, hscan⟩
        · exact ih _ span h'

theorem not_breaksRun_page {prev cur : PdfTextItem} (h : ¬breaksRun prev cur) :
    cur.pageIndex = prev.pageIndex := by
  unfold breaksRun at h
  push_neg at h
  exact h.1

theorem innerCont_pages (needle : List Char) (bound : Nat) (P : Nat) :
    ∀ (rest : List PdfTextItem) (prev : PdfTextItem) (buffer : List Char)
      (acc : List PdfTextItem) (jRel : Nat) (m : List PdfTextItem) (j : Nat),
      prev.pageIndex = P → (∀ a ∈ acc, a.pageIndex = P) →
      innerCont needle bound prev buffer acc jRel rest = some (m, j) →
      ∀ a ∈ m, a.pageIndex = P := by
  intro rest
  induction rest with
  | nil =>
    intro prev buffer acc jRel m j _ _ hsome
    simp [innerCont] at hsome
  | cons cur rest ih =>
    intro prev buffer acc jRel m j hprev hacc hsome
    simp only [innerCont] at hsome
    split at hsome
    · cases hsome
    case isFalse hbr =>
      have hcur : cur.pageIndex = P := (not_breaksRun_page hbr).trans hprev
      split at hsome
      · rcases hsome with ⟨rfl, rfl⟩
        intro a ha
        rcases List.mem_append.mp ha with h | h
        · exact hacc a h
        · rw [List.mem_singleton.mp h]; exact hcur
      · split at hsome
        · cases hsome
        · refine ih cur _ (acc ++ [cur]) (jRel + 1) m j hcur ?_ hsome
          intro a ha
          rcases List.mem_append.mp ha with h | h
          · exact hacc a h
          · rw [List.mem_singleton.mp h]; exact hcur

theorem innerScan_pages (needle : List Char) (bound : Nat) :
    ∀ (l : List PdfTextItem) (m : List PdfTextItem) (j : Nat),
      innerScan needle bound l = some (m, j) →
      ∃ P, ∀ a ∈ m, a.pageIndex = P := by
  intro l m j h
  cases l with
  | nil => simp [innerScan] at h
  | cons cur rest =>
    simp only [innerScan] at h
    split at h
    · rcases h with ⟨rfl, rfl⟩
      exact ⟨cur.pageIndex, by simp⟩
    · split at h
      · cases h
      · exact ⟨cur.pageIndex,
          innerCont_pages needle bound cur.pageIndex rest cur cur.str [cur] 0 m j rfl
            (by simp) h⟩

/-- Claim C5: every span the matcher returns lies entirely on one page — all
fragments of a returned span share the same `pageIndex`, so in particular no
two consecutive fragments of a span differ in `pageIndex`. -/
theorem c5_same_page :
    ∀ (term : List Char) (items : List PdfTextItem) (span : List PdfTextItem),
      span ∈ findMatchingTextItems term items →
      ∀ a ∈ span, ∀ b ∈ span, a.pageIndex = b.pageIndex := by
  intro term items span hmem a ha b hb
  obtain ⟨l, j, hscan⟩ := scanAux_mem (lowerStr term) (term.length + 20) items.length items span hmem
  obtain ⟨P, hP⟩ := innerScan_pages _ _ _ _ _ hscan
  rw [hP a ha, hP b hb]

/-- Claim C5, witness: the span matched for term `"ab"` over a one-fragment
list is subject to the same-page theorem — instantiating it at that span's
fragment discharges all its membership hypotheses. -/
theorem c5_witness :
    (⟨"ab".toList, 0, 0, 10, 10, 0⟩ : PdfTextItem).pageIndex =
      (⟨"ab".toList, 0, 0, 10, 10, 0⟩ : PdfTextItem).pageIndex :=
  c5_same_page "ab".toList [⟨"ab".toList, 0, 0, 10, 10, 0⟩]
    [⟨"ab".toList, 0, 0, 10, 10, 0⟩] (by decide)
    ⟨"ab".toList, 0, 0, 10, 10, 0⟩ (by decide)
    ⟨"ab".toList, 0, 0, 10, 10, 0⟩ (by decide)

theorem bufferOf_snoc :
    ∀ (acc₀ : List PdfTextItem) (prev cur : PdfTextItem),
      bufferOf ((acc₀ ++ [prev]) ++ [cur]) =
        bufferOf (acc₀ ++ [prev]) ++ gapSpace prev cur ++ cur.str := by
  intro acc₀
  induction acc₀ with
  | nil => intro prev cur; simp [bufferOf]
  | cons a rest ih =>
    intro prev cur
    cases rest with
    | nil => simp [bufferOf, List.append_assoc]
    | cons b t =>
      simp only [List.cons_append, bufferOf, List.append_eq]
      have ih' := ih prev cur
      simp only [List.cons_append, List.append_eq] at ih'
      rw [ih']
      simp [List.append_assoc]

theorem innerCont_buffer (needle : List Char) (bound : Nat) :
    ∀ (rest : List PdfTextItem) (prev : PdfTextItem) (buffer : List Char)
      (acc acc₀ : List PdfTextItem) (jRel : Nat) (m : List PdfTextItem) (j : Nat),
      acc = acc₀ ++ [prev] → buffer = bufferOf acc →
      innerCont needle bound prev buffer acc jRel rest = some (m, j) →
      acceptBuffer needle (bufferOf m) = true := by
  intro rest
  induction rest with
  | nil =>
    intro prev buffer acc acc₀ jRel m j _ _ hsome
    simp [innerCont] at hsome
  | cons cur rest ih =>
    intro prev buffer acc acc₀ jRel m j hacc hbuf hsome
    simp only [innerCont] at hsome
    split at hsome
    · cases hsome
    case isFalse hbr =>
      have hbuf' : buffer ++ gapSpace prev cur ++ cur.str = bufferOf (acc ++ [cur]) := by
        rw [hacc, bufferOf_snoc acc₀ prev cur, ← hacc, ← hbuf]
      split at hsome
      case isTrue haccpt =>
        rcases hsome with ⟨rfl, rfl⟩
        rwa [← hbuf']
      · split at hsome
        · cases hsome
        · exact ih cur _ (acc ++ [cur]) (acc₀ ++ [prev]) (jRel + 1) m j
            (by rw [hacc]) (by rw [hbuf', hacc]) hsome

theorem innerScan_buffer (needle : List Char) (bound : Nat) :
    ∀ (l : List PdfTextItem) (m : List PdfTextItem) (j : Nat),
      innerScan needle bound l = some (m, j) →
      acceptBuffer needle (bufferOf m) = true := by
  intro l m j h
  cases l with
  | nil => simp [innerScan] at h
  | cons cur rest =>
    simp only [innerScan] at h
    split at h
    case isTrue haccpt =>
      rcases h with ⟨rfl, rfl⟩
      exact haccpt
    · split at h
      · cases h
      · exact innerCont_buffer needle bound rest cur cur.str [cur] [] 0 m j rfl rfl h

/-- Claim C2, counterexample: the term `"red"` over the single fragment
`"reds"` returns a span whose concatenated, lower-cased, whitespace-stripped
text is `"reds"`, not `"red"` — the matcher's remainder heuristic accepts a
span covering one character beyond the term, so exact normalized equality
fails. -/
theorem c2_counterexample :
    findMatchingTextItems "red".toList [⟨"reds".toList, 0, 0, 10, 10, 0⟩] =
      [[⟨"reds".toList, 0, 0, 10, 10, 0⟩]] ∧
    specNormalize (spanText [⟨"reds".toList, 0, 0, 10, 10, 0⟩]) ≠
      specNormalize "red".toList := by
  constructor
  · decide
  · decide

/-- Claim C2 (amended): every span the matcher returns satisfies the code's
acceptance test rather than exact normalized equality — the span's buffer (its
fragments' text joined with a space exactly where the horizontal gap exceeds
0.1), lower-cased, contains the lower-cased term as a substring, and deleting
the term's first occurrence and trimming leaves fewer than 2 characters; a
span can therefore cover up to one extra non-whitespace character beyond the
term, and a phrase split across fragments is found only when the
geometry-derived spacing reproduces the term's whitespace. -/
theorem c2_accept_invariant :
    ∀ (term : List Char) (items : List PdfTextItem) (span : List PdfTextItem),
      span ∈ findMatchingTextItems term items →
      acceptBuffer (lowerStr term) (bufferOf span) = true := by
  intro term items span hmem
  obtain ⟨l, j, hscan⟩ :=
    scanAux_mem (lowerStr term) (term.length + 20) items.length items span hmem
  exact innerScan_buffer (lowerStr term) (term.length + 20) l span j hscan

/-- Claim C2, witness: the amended acceptance property at the concrete match of
`"red"` against the fragment `"reds"`. -/
theorem c2_witness :
    acceptBuffer (lowerStr "red".toList)
      (bufferOf [⟨"reds".toList, 0, 0, 10, 10, 0⟩]) = true :=
  c2_accept_invariant "red".toList [⟨"reds".toList, 0, 0, 10, 10, 0⟩]
    [⟨"reds".toList, 0, 0, 10, 10, 0⟩] (by decide)

theorem innerCont_take (needle : List Char) (bound : Nat) :
    ∀ (rest : List PdfTextItem) (prev : PdfTextItem) (buffer : List Char)
      (acc : List PdfTextItem) (jRel : Nat),
      (∀ it ∈ rest, it.str ≠ []) → jRel + 1 ≤ buffer.length → buffer.length ≤ bound →
      innerCont needle bound prev buffer acc jRel rest =
        innerCont needle bound prev buffer acc jRel (rest.take (bound - jRel)) := by
  intro rest
  induction rest with
  | nil => intro prev buffer acc jRel _ _ _; rw [List.take_nil]
  | cons cur rest ih =>
    intro prev buffer acc jRel hne hlen hbound
    have h1 : jRel + 1 ≤ bound := le_trans hlen hbound
    rw [show bound - jRel = (bound - jRel - 1) + 1 by omega, List.take_succ_cons]
    simp only [innerCont]
    split
    · rfl
    · split
      · rfl
      · split
        · rfl
        case isFalse hlen2 =>
          have hcur : cur.str ≠ [] := hne cur (List.mem_cons_self cur rest)
          have hpos : 1 ≤ cur.str.length := List.length_pos.mpr hcur
          have hb1 : jRel + 1 + 1 ≤ (buffer ++ (gapSpace prev cur ++ cur.str)).length := by
            simp only [List.length_append]
            omega
          have hb2 : (buffer ++ (gapSpace prev cur ++ cur.str)).length ≤ bound :=
            le_of_not_lt (by simpa [List.append_assoc] using hlen2)
          rw [show bound - jRel - 1 = bound - (jRel + 1) by omega]
          simpa [List.append_assoc] using
            ih cur (buffer ++ gapSpace prev cur ++ cur.str) (acc ++ [cur]) (jRel + 1)
              (fun it h => hne it (List.mem_cons_of_mem cur h))
              (by simpa [List.append_assoc] using hb1)
              (by simpa [List.append_assoc] using hb2)

theorem innerScan_take (needle : List Char) (bound : Nat) :
    ∀ (items : List PdfTextItem), (∀ it ∈ items, it.str ≠ []) →
      innerScan needle bound items = innerScan needle bound (items.take (bound + 1)) := by
  intro items hne
  cases items with
  | nil => rfl
  | cons cur rest =>
    rw [List.take_succ_cons]
    simp only [innerScan]
    split
    · rfl
    · split
      · rfl
      case isFalse hlen =>
        have h := innerCont_take needle bound rest cur cur.str [cur] 0
          (fun it h => hne it (List.mem_cons_of_mem cur h))
          (by
            have : cur.str ≠ [] := hne cur (List.mem_cons_self cur rest)
            simpa using List.length_pos.mpr this)
          (le_of_not_lt hlen)
        rwa [Nat.sub_zero] at h

theorem innerCont_consumed (needle : List Char) (bound : Nat) :
    ∀ (rest : List PdfTextItem) (prev : PdfTextItem) (buffer : List Char)
      (acc : List PdfTextItem) (jRel : Nat) (m : List PdfTextItem) (j : Nat),
      (∀ it ∈ rest, it.str ≠ []) → jRel + 1 ≤ buffer.length → buffer.length ≤ bound →
      acc.length = jRel + 1 →
      innerCont needle bound prev buffer acc jRel rest = some (m, j) →
      m.length = j + 1 ∧ j + 1 ≤ bound + 1 := by
  intro rest
  induction rest with
  | nil =>
    intro prev buffer acc jRel m j _ _ _ _ hsome
    simp [innerCont] at hsome
  | cons cur rest ih =>
    intro prev buffer acc jRel m j hne hlen hbound hacc hsome
    simp only [innerCont] at hsome
    split at hsome
    · cases hsome
    · split at hsome
      · rcases hsome with ⟨rfl, rfl⟩
        constructor
        · simp [hacc]
        · omega
      · split at hsome
        · cases hsome
        case isFalse hlen2 =>
          have hcur : cur.str ≠ [] := hne cur (List.mem_cons_self cur rest)
          have hpos : 1 ≤ cur.str.length := List.length_pos.mpr hcur
          refine ih cur (buffer ++ gapSpace prev cur ++ cur.str) (acc ++ [cur]) (jRel + 1)
            m j (fun it h => hne it (List.mem_cons_of_mem cur h)) ?_ (le_of_not_lt hlen2)
            (by simp [hacc]) hsome
          simp only [List.length_append]
          omega

theorem innerScan_consumed (needle : List Char) (bound : Nat) :
    ∀ (items : List PdfTextItem) (m : List PdfTextItem) (j : Nat),
      (∀ it ∈ items, it.str ≠ []) →
      innerScan needle bound items = some (m, j) →
      m.length = j + 1 ∧ j + 1 ≤ bound + 1 := by
  intro items m j hne h
  cases items with
  | nil => simp [innerScan] at h
  | cons cur rest =>
    simp only [innerScan] at h
    split at h
    · rcases h with ⟨rfl, rfl⟩
      exact ⟨rfl, by omega⟩
    · split at h
      · cases h
      case isFalse hlen =>
        exact innerCont_consumed needle bound rest cur cur.str [cur] 0 m j
          (fun it hm => hne it (List.mem_cons_of_mem cur hm))
          (by
            have : cur.str ≠ [] := hne cur (List.mem_cons_self cur rest)
            simpa using List.length_pos.mpr this)
          (le_of_not_lt hlen) rfl h

/-- Claim C9: with the fragment invariant that every stored fragment has
non-empty text, the matcher's inner accumulation loop is insensitive to
everything beyond the first `term.length + 21` fragments after the start
position (its buffer exceeds the `term.length + 20` bound by then), and any
match it reports consumes at most `term.length + 21` fragments — so the work
per start position is bounded in the term length, not the document size. -/
theorem c9_inner_bound :
    ∀ (term : List Char) (items : List PdfTextItem),
      (∀ it ∈ items, it.str ≠ []) →
      innerScan (lowerStr term) (term.length + 20) items =
        innerScan (lowerStr term) (term.length + 20) (items.take (term.length + 21)) ∧
      ∀ m j, innerScan (lowerStr term) (term.length + 20) items = some (m, j) →
        m.length = j + 1 ∧ j + 1 ≤ term.length + 21 := by
  intro term items hne
  constructor
  · exact innerScan_take (lowerStr term) (term.length + 20) items hne
  · intro m j h
    exact innerScan_consumed (lowerStr term) (term.length + 20) items m j hne h

/-- Claim C9, witness: the bound applied to a concrete non-matching fragment
list with non-empty fragment text. -/
theorem c9_witness :
    innerScan (lowerStr "ab".toList) ("ab".toList.length + 20)
        [⟨"cd".toList, 0, 0, 10, 10, 0⟩] =
      innerScan (lowerStr "ab".toList) ("ab".toList.length + 20)
        (([⟨"cd".toList, 0, 0, 10, 10, 0⟩] : List PdfTextItem).take
          ("ab".toList.length + 21)) ∧
    ∀ m j, innerScan (lowerStr "ab".toList) ("ab".toList.length + 20)
        [⟨"cd".toList, 0, 0, 10, 10, 0⟩] = some (m, j) →
      m.length = j + 1 ∧ j + 1 ≤ "ab".toList.length + 21 :=
  c9_inner_bound "ab".toList [⟨"cd".toList, 0, 0, 10, 10, 0⟩] (by decide)

/-- Claim C6, counterexample: the part_004 drag handler applies no minimum-size
threshold — a purely vertical 3-pixel drag (screen rectangle 0 wide) creates a
region, and that region's width is not strictly positive. -/
theorem c6_counterexample :
    handleMouseUpOld ⟨10, 10, 0, 3⟩ 20 20 20 20 0 [] = [⟨0, 10, 7, 0, 3⟩] ∧
    ¬(0 < (⟨0, 10, 7, 0, 3⟩ : RedactionArea).width) := by
  constructor
  · norm_num [handleMouseUpOld, mouseUpPdfCoords]
  · norm_num

/-- Claim C6 (amended): in the main (part_002) drag handler the claim holds —
a region is created exactly when both screen-space dimensions of the drag
exceed the 5-pixel threshold, and every region so created has strictly
positive width and height regardless of the drag direction, so a
click-without-drag never produces a region; the earlier part_004 handler has
no threshold and can create zero-width regions. -/
theorem c6_drag_threshold :
    ∀ (sx sy ex ey : ℚ) (vp : Viewport) (n : Nat) (rs : List RedactionArea),
      0 < vp.scale →
      (handleMouseUpMain sx sy ex ey vp n rs = rs ↔ ¬(|sx - ex| > 5 ∧ |sy - ey| > 5)) ∧
      ∀ r ∈ handleMouseUpMain sx sy ex ey vp n rs,
        r ∈ rs ∨ (0 < r.width ∧ 0 < r.height) := by
  intro sx sy ex ey vp n rs hs
  by_cases hc : |sx - ex| > 5 ∧ |sy - ey| > 5
  · constructor
    · constructor
      · intro h
        exfalso
        have hlen := congrArg List.length h
        simp only [handleMouseUpMain, if_pos hc] at hlen
        simp at hlen
      · intro h; exact absurd hc h
    · intro r hr
      simp only [handleMouseUpMain, if_pos hc, convertToPdfPoint] at hr
      rcases List.mem_append.mp hr with h | h
      · exact Or.inl h
      · right
        rw [List.mem_singleton.mp h]
        constructor
        · show (0 : ℚ) < |min sx ex / vp.scale - (min sx ex + |sx - ex|) / vp.scale|
          have key : min sx ex / vp.scale - (min sx ex + |sx - ex|) / vp.scale
              = -(|sx - ex| / vp.scale) := by ring
          rw [key, abs_neg, abs_of_pos (div_pos (lt_trans (by norm_num) hc.1) hs)]
          exact div_pos (lt_trans (by norm_num) hc.1) hs
        · show (0 : ℚ) <
            |(vp.height - (min sy ey + |sy - ey|)) / vp.scale -
              (vp.height - min sy ey) / vp.scale|
          have key : (vp.height - (min sy ey + |sy - ey|)) / vp.scale -
              (vp.height - min sy ey) / vp.scale = -(|sy - ey| / vp.scale) := by ring
          rw [key, abs_neg, abs_of_pos (div_pos (lt_trans (by norm_num) hc.2) hs)]
          exact div_pos (lt_trans (by norm_num) hc.2) hs
  · constructor
    · simp [handleMouseUpMain, if_neg hc, hc]
    · intro r hr
      simp only [handleMouseUpMain, if_neg hc] at hr
      exact Or.inl hr

/-- Claim C6, witness: a 10×10-pixel drag on a scale-2 viewport — the handler's
conclusion holds at this concrete gesture, whose created region has positive
extent. -/
theorem c6_witness :
    0 < (⟨2, 100⟩ : Viewport).scale ∧
    ∀ r ∈ handleMouseUpMain 0 0 10 10 ⟨2, 100⟩ 1 [],
      r ∈ ([] : List RedactionArea) ∨ (0 < r.width ∧ 0 < r.height) :=
  ⟨by decide, (c6_drag_threshold 0 0 10 10 ⟨2, 100⟩ 1 [] (by decide)).2⟩

end Redactify
